import Mathlib

/-!
Shallow embedding of `usrse/main/client.py` from USRSE/usrse-python.

Python records (JSON objects with string values) are modelled as ordered
association lists `List (String × String)`, matching insertion-ordered
Python dicts.  Python exceptions (IndexError, KeyError, ZeroDivisionError,
AttributeError, SystemExit) are modelled as `none` / `Except.error`
results.  `int(a / b)` on Python ints is embedded as integer division
truncating toward zero (`Int.tdiv`), which agrees with float division
followed by `int` at the magnitudes involved here.
-/

/-- A Python record: a JSON object with string values, key order preserved. -/
abbrev Record := List (String × String)

/-- The `max_widths` attribute: a dict from field name to observed length. -/
abbrev MW := List (String × Nat)

/-- Membership test `field in entry` on a record. -/
def hasKey (e : Record) (k : String) : Bool :=
  e.any (fun p => p.1 == k)

/-- Subscript read `entry[field]`; `none` models a KeyError. -/
def lookupField (e : Record) (k : String) : Option String :=
  (e.find? (fun p => p.1 == k)).map (fun p => p.2)

/-- Membership test `field in max_widths`. -/
def mwLookup (mw : MW) (k : String) : Option Nat :=
  (mw.find? (fun p => p.1 == k)).map (fun p => p.2)

/-- Dict update `max_widths[field] = v` for an already-present key. -/
def mwSet (mw : MW) (k : String) (v : Nat) : MW :=
  mw.map (fun p => if p.1 == k then (p.1, v) else p)

/-- Endpoint descriptor (from `usrse.main.endpoints`, outside `src/`).
The fields used by `client.py` are the title, emoji, skip and truncate
lists.  The `order` field is modelled from the spec: a pure function
imposing a display order on raw records; it does not mutate them. -/
structure Endpoint where
  title : String
  emoji : String
  skip_list : List String
  truncate_list : List String
  order : List Record → List Record

/-- Adds the keys of one entry to the accumulated field set
(`[fields.add(x) for x in entry.keys()]`).  Python iterates a `set` in an
unspecified order; the embedding fixes first-encounter order, on which no
proved property depends. -/
def addFields (acc : List String) (e : Record) : List String :=
  e.foldl (fun a p => if a.contains p.1 then a else a ++ [p.1]) acc

/-- The union of keys across all records (`fields` in `ensure_complete`). -/
def unionFields (data : List Record) : List String :=
  data.foldl addFields []

/-- One fill step of `ensure_complete`:
`if field not in entry: entry[field] = ""`. -/
def fillStep (e : Record) (field : String) : Record :=
  if hasKey e field then e else e ++ [(field, "")]

/-- The `max_widths` update of the inner loop of `ensure_complete`
(client.py lines 86-92), applied to the already-filled entry. -/
def mwStep (tl : List String) (entry : Record) (mw : MW) (field : String) :
    MW :=
  if tl.contains field then
    match mwLookup mw field with
    | none => mw ++ [(field, ((lookupField entry field).getD "").length)]
    | some m =>
      if m < ((lookupField entry field).getD "").length then
        mwSet mw field ((lookupField entry field).getD "").length
      else mw
  else mw

/-- The body of the inner loop of `Result.ensure_complete`
(client.py lines 80-92): fill a missing field with `""`, then track the
maximum observed length for fields in the truncate list. -/
def processField (tl : List String) (st : Record × MW) (field : String) :
    Record × MW :=
  (fillStep st.1 field, mwStep tl (fillStep st.1 field) st.2 field)

/-- Processing of one entry by `ensure_complete`: the inner loop over all
union fields. -/
def processEntry (tl : List String) (fs : List String) (st : Record × MW) :
    Record × MW :=
  fs.foldl (processField tl) st

/-- The record component of `processEntry` in isolation: fill every union
field missing from the entry with `""`. -/
def fillEntry (fs : List String) (e : Record) : Record :=
  fs.foldl fillStep e

/-- The loop of `ensure_complete` over the records, with the union field
set already computed. -/
def ensureGo (tl fs : List String) (data : List Record)
    (acc : List Record) (mw : MW) : List Record × MW :=
  data.foldl (fun st e =>
    let r := processEntry tl fs (e, st.2)
    (st.1 ++ [r.1], r.2)) (acc, mw)

/-- Embeds `Result.ensure_complete` (client.py lines 70-92): computes the
union of keys, makes every record key-uniform by filling missing fields
with `""`, and computes `max_widths` for truncate-list fields. -/
def ensure_complete (tl : List String) (data : List Record) :
    List Record × MW :=
  ensureGo tl (unionFields data) data [] []

/-- A `Result` as built by `Result.__init__`: the endpoint, the normalized
data and the derived `max_widths`. -/
structure Result where
  endpoint : Endpoint
  data : List Record
  max_widths : MW

/-- Embeds `Result.__init__` (client.py lines 29-38): `data or {}` maps a
missing body to an empty collection (the identity on lists), the endpoint
ordering is applied, then `ensure_complete` runs. -/
def Result.init (ep : Endpoint) (data : List Record) : Result :=
  let d := ep.order data
  let r := ensure_complete ep.truncate_list d
  { endpoint := ep, data := r.1, max_widths := r.2 }

/-- The `updated` value of `available_width`: the surface width minus every
reserved width in `max_widths`, accumulated exactly as the source loop
does. -/
def remainingWidth (mw : MW) (width : Nat) : Int :=
  mw.foldl (fun u p => u - (p.2 : Int)) (width : Int)

/-- Embeds `Result.available_width` (client.py lines 43-68).  The terminal
width (with its 120 fallback) is passed in as `width`.  The result is
`none` when a division by zero occurs; otherwise `some (warned, value)`
where `warned` records whether the terminal-too-small warning was logged. -/
def Result.available_width (r : Result) (width : Nat) (columns : List String) :
    Option (Bool × Int) :=
  if columns.length = 0 then none
  else if remainingWidth r.max_widths width < 0 then
    some (true, ((width / columns.length : Nat) : Int))
  else if columns.length = r.max_widths.length then none
  else some (false, Int.tdiv (remainingWidth r.max_widths width)
    ((columns.length : Int) - (r.max_widths.length : Int)))

/-- Embeds `Result.table_columns` (client.py lines 111-122): the keys of
`self.data[0]` minus the skip list; `none` models the error raised by
`self.data[0]` on an empty Result. -/
def Result.table_columns (r : Result) : Option (List String) :=
  match r.data with
  | [] => none
  | e :: _ => some ((e.map (fun p => p.1)).filter
      (fun c => !(r.endpoint.skip_list.contains c)))

/-- Python slicing `s[:w]` by code points, including a negative bound. -/
def pySlice (s : String) (w : Int) : String :=
  if 0 ≤ w then ⟨s.data.take w.toNat⟩
  else ⟨s.data.take ((s.length : Int) + w).toNat⟩

/-- One cell of `table_rows` (client.py lines 139-146): truncate a truthy
value longer than the column width unless its column is in the truncate
list. -/
def truncateCell (tl : List String) (column_width : Int)
    (column content : String) : String :=
  if content ≠ "" ∧ column_width < (content.length : Int) ∧
      tl.contains column = false then
    pySlice content column_width ++ "..."
  else content

/-- The records actually iterated by `table_rows`: the loop returns before
yielding index `limit + 1` when `limit` is truthy. -/
def Result.limited (r : Result) (limit : Nat) : List Record :=
  if limit ≠ 0 then r.data.take (limit + 1) else r.data

/-- Option-valued map, modelling a loop that stops at the first raised
exception. -/
def mapOption (f : α → Option β) : List α → Option (List β)
  | [] => some []
  | a :: as =>
    match f a, mapOption f as with
    | some b, some bs => some (b :: bs)
    | _, _ => none

/-- Embeds `Result.table_rows` (client.py lines 124-147): computes the
column width, then yields one parsed row per record up to the limit;
`none` models a ZeroDivisionError from `available_width` or a KeyError
from `row[column]`. -/
def Result.table_rows (r : Result) (width : Nat) (columns : List String)
    (limit : Nat) : Option (List (List String)) :=
  match r.available_width width columns with
  | none => none
  | some wv =>
    mapOption (fun row =>
      mapOption (fun column =>
        (lookupField row column).map
          (truncateCell r.endpoint.truncate_list wv.2 column)) columns)
      (r.limited limit)

/-- Embeds the `color` property (client.py lines 104-109) applied to one
draw of `random.choice(range(255))`. -/
def colorOf (n : Nat) : String :=
  "color(" ++ toString n ++ ")"

/-- Embeds the inner while loop of `Result.table` / `Result.table_live`
(client.py lines 160-163 and 199-202): draw random colors until one is
truthy and not in `seen_colors`.  The random draws are an input stream;
`none` models an exhausted stream (the loop spinning forever). -/
def pickColor (seen : List String) : List Nat → Option (String × List Nat)
  | [] => none
  | n :: rest =>
    let c := colorOf n
    if seen.contains c then pickColor seen rest else some (c, rest)

/-- Embeds the column loop of `Result.table` (client.py lines 156-164) and
of `Result.table_live` (lines 191-203): `seen_colors` starts empty and —
exactly as in the source — is never extended between columns. -/
def tableAddColumns (seen_colors : List String) :
    List String → List Nat → Option (List String)
  | [], _ => some []
  | _ :: cols, stream =>
    match pickColor seen_colors stream with
    | none => none
    | some cr =>
      match tableAddColumns seen_colors cols cr.2 with
      | none => none
      | some cs => some (cr.1 :: cs)

/-- The colors assigned to the columns of one rendered table, given the
stream of random draws. -/
def Result.tableColors (columns : List String) (stream : List Nat) :
    Option (List String) :=
  tableAddColumns [] columns stream

/-- Embeds `Result.to_dict` (client.py lines 94-95). -/
def Result.to_dict (r : Result) : List Record :=
  r.data

/-- The attribute names defined on a `Result` object: the three instance
attributes set in `__init__` plus the `color` property.  There is no
`title`. -/
def resultAttrNames : List String :=
  ["endpoint", "data", "max_widths", "color"]

/-- Embeds `Result.save` (client.py lines 97-102).  The log message
evaluates `self.title or "data"` before anything is written; attribute
lookup on a `Result` for `title` fails, which the `Except.error` models. -/
def Result.save (r : Result) (outfile : String) :
    Except String (String × List Record) :=
  if resultAttrNames.contains "title" then
    Except.ok ("Saving data to " ++ outfile ++ "...", r.data)
  else Except.error "AttributeError: title"

/-- The string attributes of a `requests.Response` relevant here: the body
is exposed as `text`; there is no attribute `txt`. -/
def responseTextAttr (body : String) : String → Option String
  | "text" => some body
  | _ => none

/-- A `requests.Response` as used by `Client.get`: a status code, a body,
and the parsed JSON records. -/
structure Response where
  status_code : Nat
  body : String
  json : List Record

/-- Embeds the response handling of `Client.get` (client.py lines 262-280)
for a registered endpoint: on a non-200 status the source evaluates
`result.txt` while building the exit message; `.error` carries either the
resulting AttributeError or the SystemExit message. -/
def clientGet (ep : Endpoint) (url : String) (resp : Response) :
    Except String Result :=
  if resp.status_code ≠ 200 then
    match responseTextAttr resp.body "txt" with
    | none => Except.error "AttributeError: txt"
    | some t => Except.error ("Issue retrieving " ++ url ++ ":\n" ++ t)
  else Except.ok (Result.init ep resp.json)

/-!
Store-based embedding of `Result.__init__` / `ensure_complete` /
`to_dict`.  Python record dicts live on a heap and `Result` holds
references to them, so in-place mutation and aliasing are observable by
the caller.  Here the heap is an explicit `Store` and a record value is a
reference (its index); `ensure_complete` writes the filled records back
through those references, exactly as `entry[field] = ""` does.
-/

/-- The heap of record objects; a reference is an index into it. -/
abbrev Store := List Record

/-- Dereference: the record object behind reference `i`. -/
def getRec (s : Store) (i : Nat) : Record :=
  s.getD i []

/-- In-place update of the record object behind reference `i`. -/
def setRec (s : Store) (i : Nat) (e : Record) : Store :=
  s.set i e

/-- The loop of `ensure_complete` over a list of record references,
with the union field set already computed. -/
def ensureGoS (tl : List String) (fs : List String) (ids : List Nat)
    (s : Store) (mw : MW) : Store × MW :=
  ids.foldl (fun st id =>
    let r := processEntry tl fs (getRec st.1 id, st.2)
    (setRec st.1 id r.1, r.2)) (s, mw)

/-- Store-based `Result.ensure_complete`: computes the union of keys of
the referenced records, then fills each referenced record in place. -/
def ensure_completeS (tl : List String) (s : Store) (ids : List Nat) :
    Store × MW :=
  ensureGoS tl (unionFields (ids.map (getRec s))) ids s []

/-- A `Result` whose `data` attribute is the list of record references
produced by the endpoint ordering. -/
structure ResultS where
  endpoint : Endpoint
  data : List Nat
  max_widths : MW

/-- Store-based `Result.__init__` (client.py lines 29-38): `ids` is the
reference list returned by the endpoint ordering (modelled from the spec
as a pure permutation of the references passed by the caller, copying no
record).  Returns the updated heap together with the Result. -/
def ResultS.init (ep : Endpoint) (s : Store) (ids : List Nat) :
    Store × ResultS :=
  let r := ensure_completeS ep.truncate_list s ids
  (r.1, { endpoint := ep, data := ids, max_widths := r.2 })

/-- Store-based `Result.to_dict` (client.py lines 94-95): returns the
internal reference list itself, not a copy. -/
def ResultS.to_dict (r : ResultS) : List Nat :=
  r.data

/-- The record sequence a renderer reads from a store-based Result at
render time: `self.data` dereferenced against the current heap.  Its
`data` field is what `Result.table_columns` / `Result.table_rows`
consume. -/
def ResultS.view (s : Store) (r : ResultS) : Result :=
  { endpoint := r.endpoint, data := r.data.map (getRec s),
    max_widths := r.max_widths }

/-!
Lemmas about records, key filling and the union field set.
-/

theorem hasKey_append (e : Record) (f v k : String) :
    hasKey (e ++ [(f, v)]) k = (hasKey e k || (f == k)) := by
  simp [hasKey]

theorem hasKey_fillStep (e : Record) (f k : String) :
    hasKey (fillStep e f) k = (hasKey e k || (f == k)) := by
  unfold fillStep
  split
  · rename_i h
    cases hfk : (f == k) with
    | false => simp
    | true =>
      have hk : f = k := eq_of_beq hfk
      subst hk
      simp [h]
  · exact hasKey_append e f "" k

theorem hasKey_fillStep_mono (e : Record) (f k : String)
    (h : hasKey e k = true) : hasKey (fillStep e f) k = true := by
  rw [hasKey_fillStep]
  simp [h]

theorem hasKey_fillEntry (fs : List String) (e : Record) (k : String) :
    hasKey (fillEntry fs e) k = true ↔ hasKey e k = true ∨ k ∈ fs := by
  induction fs generalizing e with
  | nil => simp [fillEntry]
  | cons f fs ih =>
    show hasKey (fillEntry fs (fillStep e f)) k = true ↔ _
    rw [ih, hasKey_fillStep]
    simp only [Bool.or_eq_true, beq_iff_eq, List.mem_cons]
    constructor
    · rintro ((h | h) | h)
      · exact Or.inl h
      · exact Or.inr (Or.inl h.symm)
      · exact Or.inr (Or.inr h)
    · rintro (h | h | h)
      · exact Or.inl (Or.inl h)
      · exact Or.inl (Or.inr h.symm)
      · exact Or.inr h

theorem lookupField_cons_of_neg (p : String × String) (e : Record)
    (k : String) (h : (p.1 == k) = false) :
    lookupField (p :: e) k = lookupField e k := by
  unfold lookupField
  rw [List.find?_cons_of_neg]
  simp [h]

theorem lookupField_append_right (e l : Record) (k : String)
    (h : hasKey e k = false) : lookupField (e ++ l) k = lookupField l k := by
  induction e with
  | nil => simp
  | cons p e ih =>
    simp only [hasKey, List.any_cons, Bool.or_eq_false_iff] at h
    rw [List.cons_append, lookupField_cons_of_neg _ _ _ h.1]
    exact ih h.2

theorem lookupField_append_left (e l : Record) (k : String)
    (h : hasKey e k = true) : lookupField (e ++ l) k = lookupField e k := by
  induction e with
  | nil => simp [hasKey] at h
  | cons p e ih =>
    cases hpk : (p.1 == k) with
    | true =>
      rw [List.cons_append]
      unfold lookupField
      rw [List.find?_cons_of_pos, List.find?_cons_of_pos] <;> exact hpk
    | false =>
      have hin : hasKey e k = true := by
        simp only [hasKey, List.any_cons, hpk, Bool.false_or] at h
        exact h
      rw [List.cons_append, lookupField_cons_of_neg _ _ _ hpk,
        lookupField_cons_of_neg _ _ _ hpk]
      exact ih hin

theorem lookupField_fillStep_self (e : Record) (f : String)
    (h : hasKey e f = false) : lookupField (fillStep e f) f = some "" := by
  unfold fillStep
  rw [if_neg (by simp [h])]
  rw [lookupField_append_right e _ f h]
  simp [lookupField, List.find?]

theorem lookupField_fillStep_of_hasKey (e : Record) (f k : String)
    (h : hasKey e k = true) :
    lookupField (fillStep e f) k = lookupField e k := by
  unfold fillStep
  split
  · rfl
  · exact lookupField_append_left e _ k h

theorem lookupField_fillEntry_of_hasKey (fs : List String) (e : Record)
    (k : String) (h : hasKey e k = true) :
    lookupField (fillEntry fs e) k = lookupField e k := by
  induction fs generalizing e with
  | nil => rfl
  | cons f fs ih =>
    show lookupField (fillEntry fs (fillStep e f)) k = _
    rw [ih _ (hasKey_fillStep_mono e f k h),
      lookupField_fillStep_of_hasKey e f k h]

theorem lookupField_fillEntry_missing (fs : List String) (e : Record)
    (k : String) (hk : k ∈ fs) (h : hasKey e k = false) :
    lookupField (fillEntry fs e) k = some "" := by
  induction fs generalizing e with
  | nil => cases hk
  | cons f fs ih =>
    show lookupField (fillEntry fs (fillStep e f)) k = some ""
    by_cases hfk : f = k
    · subst hfk
      have h3 : hasKey (fillStep e f) f = true := by
        rw [hasKey_fillStep]
        simp
      rw [lookupField_fillEntry_of_hasKey fs _ f h3,
        lookupField_fillStep_self e f h]
    · have hk2 : k ∈ fs := by
        rcases List.mem_cons.mp hk with h1 | h1
        · exact absurd h1.symm hfk
        · exact h1
      have h4 : hasKey (fillStep e f) k = false := by
        rw [hasKey_fillStep, h]
        simp only [Bool.false_or]
        exact beq_eq_false_iff_ne.mpr hfk
      exact ih (fillStep e f) hk2 h4

theorem mem_addFields (e : Record) (acc : List String) (k : String) :
    k ∈ addFields acc e ↔ k ∈ acc ∨ hasKey e k = true := by
  induction e generalizing acc with
  | nil => simp [addFields, hasKey]
  | cons p e ih =>
    show k ∈ addFields (if acc.contains p.1 then acc else acc ++ [p.1]) e ↔ _
    rw [ih]
    simp only [hasKey, List.any_cons, Bool.or_eq_true, beq_iff_eq]
    by_cases hc : acc.contains p.1 = true
    · rw [if_pos hc]
      constructor
      · rintro (h | h)
        · exact Or.inl h
        · exact Or.inr (Or.inr h)
      · rintro (h | h | h)
        · exact Or.inl h
        · exact Or.inl (by
            have : p.1 ∈ acc := by simpa using hc
            rw [← h]
            exact this)
        · exact Or.inr h
    · rw [if_neg hc]
      simp only [List.mem_append, List.mem_singleton]
      constructor
      · rintro ((h | h) | h)
        · exact Or.inl h
        · exact Or.inr (Or.inl h.symm)
        · exact Or.inr (Or.inr h)
      · rintro (h | h | h)
        · exact Or.inl (Or.inl h)
        · exact Or.inl (Or.inr h.symm)
        · exact Or.inr h

theorem mem_unionFields_aux (data : List Record) (acc : List String)
    (k : String) :
    k ∈ data.foldl addFields acc ↔
      k ∈ acc ∨ ∃ e, e ∈ data ∧ hasKey e k = true := by
  induction data generalizing acc with
  | nil => simp
  | cons r data ih =>
    show k ∈ data.foldl addFields (addFields acc r) ↔ _
    rw [ih, mem_addFields]
    constructor
    · rintro ((h | h) | ⟨e, he, hk⟩)
      · exact Or.inl h
      · exact Or.inr ⟨r, List.mem_cons_self r data, h⟩
      · exact Or.inr ⟨e, List.mem_cons_of_mem r he, hk⟩
    · rintro (h | ⟨e, he, hk⟩)
      · exact Or.inl (Or.inl h)
      · rcases List.mem_cons.mp he with h1 | h1
        · subst h1
          exact Or.inl (Or.inr hk)
        · exact Or.inr ⟨e, h1, hk⟩

theorem mem_unionFields (data : List Record) (k : String) :
    k ∈ unionFields data ↔ ∃ e, e ∈ data ∧ hasKey e k = true := by
  show k ∈ data.foldl addFields [] ↔ _
  rw [mem_unionFields_aux]
  simp

theorem processEntry_fst (tl fs : List String) (st : Record × MW) :
    (processEntry tl fs st).1 = fillEntry fs st.1 := by
  induction fs generalizing st with
  | nil => rfl
  | cons f fs ih =>
    show (processEntry tl fs (processField tl st f)).1 = _
    rw [ih]
    rfl

theorem ensureGo_fst (tl fs : List String) (data : List Record)
    (acc : List Record) (mw : MW) :
    (ensureGo tl fs data acc mw).1 = acc ++ data.map (fillEntry fs) := by
  induction data generalizing acc mw with
  | nil => simp [ensureGo]
  | cons e data ih =>
    show (ensureGo tl fs data
        (acc ++ [(processEntry tl fs (e, mw)).1])
        (processEntry tl fs (e, mw)).2).1 = _
    rw [ih, processEntry_fst]
    simp

theorem ensure_complete_fst (tl : List String) (data : List Record) :
    (ensure_complete tl data).1 = data.map (fillEntry (unionFields data)) := by
  show (ensureGo tl (unionFields data) data [] []).1 = _
  rw [ensureGo_fst]
  simp

/-!
Concrete endpoints, record sequences and responses used to instantiate
the claim theorems.  Every concrete `order` is the identity ordering, a
legitimate instance of the spec-modelled pure display ordering.
-/

def epW1 : Endpoint :=
  { title := "People", emoji := "people", skip_list := [],
    truncate_list := [], order := fun l => l }

def dataW1 : List Record :=
  [[("name", "Alice"), ("role", "chair")], [("name", "Bob")]]

def epC3 : Endpoint :=
  { title := "Jobs", emoji := "briefcase", skip_list := [],
    truncate_list := [], order := fun l => l }

def epC4 : Endpoint :=
  { title := "t", emoji := "e", skip_list := ["a", "b"],
    truncate_list := ["a", "b"], order := fun l => l }

def dataC4 : List Record :=
  [[("a", "x"), ("b", "y"), ("c", "z")]]

def epW4 : Endpoint :=
  { title := "t", emoji := "e", skip_list := [],
    truncate_list := ["url"], order := fun l => l }

def dataW4 : List Record :=
  [[("url", "aaaaaaaaaaa")]]

def epC5 : Endpoint :=
  { title := "t", emoji := "e", skip_list := [],
    truncate_list := ["url"], order := fun l => l }

def dataC5 : List Record :=
  [[("url", "x")]]

def epC8 : Endpoint :=
  { title := "Jobs", emoji := "briefcase", skip_list := [],
    truncate_list := [], order := fun l => l }

def respC8 : Response :=
  { status_code := 404, body := "not found", json := [] }

/-!
Claim theorems.
-/

/-- C1: for every input sequence of records and every endpoint
descriptor, after Result construction (normalization via
`ensure_complete`) every stored record has a key set equal to the union
of keys across all input records, and every key absent from an original
record is mapped to the empty string.  The endpoint ordering is
spec-modelled, so the theorem assumes it permutes the input. -/
theorem result_init_normalizes (ep : Endpoint) (data : List Record)
    (horder : (ep.order data).Perm data) (i : Nat) (r orig : Record)
    (k : String)
    (hr : (Result.init ep data).data[i]? = some r)
    (horig : (ep.order data)[i]? = some orig) :
    (hasKey r k = true ↔ k ∈ unionFields data) ∧
    (k ∈ unionFields data → hasKey orig k = false →
      lookupField r k = some "") := by
  have hdata : (Result.init ep data).data
      = (ep.order data).map (fillEntry (unionFields (ep.order data))) :=
    ensure_complete_fst ep.truncate_list (ep.order data)
  rw [hdata, List.getElem?_map, horig, Option.map_some'] at hr
  obtain rfl : r = fillEntry (unionFields (ep.order data)) orig :=
    (Option.some.inj hr).symm
  have hmem : orig ∈ ep.order data := List.getElem?_mem horig
  have hfsiff : ∀ j : String,
      j ∈ unionFields (ep.order data) ↔ j ∈ unionFields data := by
    intro j
    rw [mem_unionFields, mem_unionFields]
    constructor
    · rintro ⟨e, he, hk⟩
      exact ⟨e, horder.mem_iff.mp he, hk⟩
    · rintro ⟨e, he, hk⟩
      exact ⟨e, horder.mem_iff.mpr he, hk⟩
  constructor
  · rw [hasKey_fillEntry]
    constructor
    · rintro (hk | hk)
      · exact (hfsiff k).mp ((mem_unionFields _ _).mpr ⟨orig, hmem, hk⟩)
      · exact (hfsiff k).mp hk
    · intro hk
      exact Or.inr ((hfsiff k).mpr hk)
  · intro hk hfalse
    exact lookupField_fillEntry_missing _ _ _ ((hfsiff k).mpr hk) hfalse

/-- Witness for C1: the two-record example; the second record gains a
`role` key mapped to the empty string, and its key set covers the
union. -/
theorem result_init_normalizes_witness :
    (hasKey [("name", "Bob"), ("role", "")] "role" = true ↔
      "role" ∈ unionFields dataW1) ∧
    ("role" ∈ unionFields dataW1 →
      hasKey [("name", "Bob")] "role" = false →
      lookupField [("name", "Bob"), ("role", "")] "role" = some "") :=
  result_init_normalizes epW1 dataW1 (List.Perm.refl _) 1
    [("name", "Bob"), ("role", "")] [("name", "Bob")] "role"
    (by decide) (by decide)

/-- C2: the claim says `save(path)` serializes the data as JSON and does
not raise for a writable path; in the code the log message evaluates
`self.title`, an attribute no `Result` has, so `save` always raises
AttributeError before writing anything. -/
theorem result_save_attribute_error (r : Result) (outfile : String) :
    r.save outfile = Except.error "AttributeError: title" := by
  rfl

/-- C3: on a Result built from zero records, `table_columns` raises while
indexing `self.data[0]` and `table_rows` raises a ZeroDivisionError in
`available_width` on the empty column list, contradicting the claimed
graceful empty behavior. -/
theorem empty_result_table_ops_raise :
    (Result.init epC3 []).data = [] ∧
    (Result.init epC3 []).table_columns = none ∧
    (Result.init epC3 []).table_rows 120 [] 25 = none := by
  exact ⟨by decide, by decide, by decide⟩

/-- C4 counterexample: a Result whose `max_widths` holds more fields than
the displayed column list makes the final division run with a negative
denominator, so `available_width` returns a negative number with no
warning. -/
theorem available_width_negative_counterexample :
    (Result.init epC4 dataC4).available_width 120 ["c"]
      = some (false, -118) ∧ (-118 : Int) < 0 := by
  exact ⟨by decide, by decide⟩

/-- C4 amended: whenever strictly more columns are displayed than
`max_widths` holds reserved fields, `available_width` never returns a
negative number, and when the reserved widths exceed the surface width it
warns and returns the naive fallback `width / len(columns)`. -/
theorem available_width_nonneg (r : Result) (width : Nat)
    (columns : List String) (h : r.max_widths.length < columns.length)
    (b : Bool) (v : Int)
    (hw : r.available_width width columns = some (b, v)) :
    0 ≤ v ∧ (remainingWidth r.max_widths width < 0 →
      b = true ∧ v = ((width / columns.length : Nat) : Int)) := by
  unfold Result.available_width at hw
  rw [if_neg (by omega : ¬ columns.length = 0)] at hw
  by_cases hrem : remainingWidth r.max_widths width < 0
  · rw [if_pos hrem] at hw
    simp only [Option.some.injEq, Prod.mk.injEq] at hw
    obtain ⟨hb, hv⟩ := hw
    constructor
    · rw [← hv]
      exact Int.natCast_nonneg _
    · intro
      exact ⟨hb.symm, hv.symm⟩
  · rw [if_neg hrem,
      if_neg (by omega : ¬ columns.length = r.max_widths.length)] at hw
    simp only [Option.some.injEq, Prod.mk.injEq] at hw
    obtain ⟨hb, hv⟩ := hw
    constructor
    · rw [← hv]
      apply Int.tdiv_nonneg
      · omega
      · have hlt : (r.max_widths.length : Int) < (columns.length : Int) := by
          exact_mod_cast h
        omega
    · intro hc
      exact absurd hc hrem

/-- Witness for the amended C4: one reserved column wider than a
10-character surface triggers the warning branch and the naive fallback
width 5, a nonnegative value. -/
theorem available_width_nonneg_witness :
    0 ≤ (5 : Int) ∧
    (remainingWidth (Result.init epW4 dataW4).max_widths 10 < 0 →
      true = true ∧
      (5 : Int) = ((10 / (["name", "role"] : List String).length : Nat) : Int)) :=
  available_width_nonneg (Result.init epW4 dataW4) 10 ["name", "role"]
    (by decide) true 5 (by decide)

/-- C5: the claim says the division in `available_width` is unreachable
or guarded when every displayed column is reserved; in the code a Result
with one short reserved column reaches the division with a zero
denominator, raising ZeroDivisionError. -/
theorem available_width_division_by_zero :
    (Result.init epC5 dataC5).max_widths.length = 1 ∧
    0 ≤ remainingWidth (Result.init epC5 dataC5).max_widths 120 ∧
    (Result.init epC5 dataC5).available_width 120 ["url"] = none := by
  exact ⟨by decide, by decide, by decide⟩

/-- C8: the claim says a non-200 response fails with an error message
including the raw body; in the code the exit message evaluates
`result.txt`, which is not an attribute of a response (the body is
`text`), so the process dies with an AttributeError that does not carry
the body. -/
theorem client_get_non200_attribute_error (ep : Endpoint) (url : String)
    (resp : Response) (h : resp.status_code ≠ 200) :
    clientGet ep url resp = Except.error "AttributeError: txt" := by
  unfold clientGet
  rw [if_pos h]
  rfl

/-- Witness for C8: a 404 with body text never surfaces that body. -/
theorem client_get_non200_attribute_error_witness :
    (404 : Nat) ≠ 200 ∧
    clientGet epC8 "https://usrse.github.io/api/jobs.json" respC8 =
      Except.error "AttributeError: txt" :=
  ⟨by decide,
    client_get_non200_attribute_error epC8
      "https://usrse.github.io/api/jobs.json" respC8 (by decide)⟩

/-- C9: the claim says column colors are retried until pairwise distinct;
in the code `seen_colors` is never extended, so a repeated random draw
assigns the same color to two columns of one table. -/
theorem table_colors_duplicate :
    Result.tableColors ["name", "role"] [5, 5]
      = some ["color(5)", "color(5)"] ∧
    ¬ (["color(5)", "color(5)"] : List String).Nodup := by
  exact ⟨by decide, by decide⟩

/-!
Lemmas about `mapOption`, and the row-count and truncation claims.
-/

theorem mapOption_length (f : α → Option β) (xs : List α) (ys : List β)
    (h : mapOption f xs = some ys) : ys.length = xs.length := by
  induction xs generalizing ys with
  | nil =>
    simp [mapOption] at h
    subst h
    rfl
  | cons a as ih =>
    unfold mapOption at h
    cases h1 : f a with
    | none => rw [h1] at h; cases h
    | some b =>
      rw [h1] at h
      cases h2 : mapOption f as with
      | none => rw [h2] at h; cases h
      | some bs =>
        rw [h2] at h
        obtain rfl : b :: bs = ys := Option.some.inj h
        simp [ih bs h2]

theorem mapOption_getElem? (f : α → Option β) (xs : List α) (ys : List β)
    (i : Nat) (x : α) (h : mapOption f xs = some ys)
    (hx : xs[i]? = some x) : ys[i]? = f x := by
  induction xs generalizing ys i with
  | nil => cases hx
  | cons a as ih =>
    unfold mapOption at h
    cases h1 : f a with
    | none => rw [h1] at h; cases h
    | some b =>
      rw [h1] at h
      cases h2 : mapOption f as with
      | none => rw [h2] at h; cases h
      | some bs =>
        rw [h2] at h
        obtain rfl : b :: bs = ys := Option.some.inj h
        cases i with
        | zero =>
          simp only [List.getElem?_cons_zero] at hx
          obtain rfl : a = x := Option.some.inj hx
          simpa using h1.symm
        | succ i =>
          simp only [List.getElem?_cons_succ] at hx ⊢
          exact ih bs i h2 hx

def epW6 : Endpoint :=
  { title := "People", emoji := "people", skip_list := [],
    truncate_list := [], order := fun l => l }

def dataW6 : List Record :=
  [[("name", "Alice")], [("name", "Bob")], [("name", "Cara")]]

/-- C6: for every Result and every positive limit, a successful
`table_rows` yields exactly `limit + 1` rows when the Result holds more
than `limit` records, and exactly `len(data)` rows when
`len(data) <= limit`. -/
theorem table_rows_limit (r : Result) (width : Nat)
    (columns : List String) (limit : Nat) (rows : List (List String))
    (hl : 0 < limit)
    (h : r.table_rows width columns limit = some rows) :
    (r.data.length ≤ limit → rows.length = r.data.length) ∧
    (limit < r.data.length → rows.length = limit + 1) := by
  unfold Result.table_rows at h
  cases hw : r.available_width width columns with
  | none => rw [hw] at h; cases h
  | some wv =>
    rw [hw] at h
    have hlen : rows.length = (r.limited limit).length :=
      mapOption_length _ _ _ h
    have hlim : (r.limited limit).length = min (limit + 1) r.data.length := by
      unfold Result.limited
      rw [if_pos (by omega : limit ≠ 0)]
      simp [List.length_take]
    rw [hlim] at hlen
    constructor
    · intro hle
      omega
    · intro hgt
      omega

/-- Witness for C6: three records with limit 2 yield three rows, which is
`limit + 1`. -/
theorem table_rows_limit_witness :
    ((Result.init epW6 dataW6).data.length ≤ 2 →
      ([["Alice"], ["Bob"], ["Cara"]] : List (List String)).length
        = (Result.init epW6 dataW6).data.length) ∧
    (2 < (Result.init epW6 dataW6).data.length →
      ([["Alice"], ["Bob"], ["Cara"]] : List (List String)).length = 2 + 1) :=
  table_rows_limit (Result.init epW6 dataW6) 120 ["name"] 2
    [["Alice"], ["Bob"], ["Cara"]] (by decide) (by decide)

def epC7 : Endpoint :=
  { title := "t", emoji := "e", skip_list := [],
    truncate_list := ["a", "b"], order := fun l => l }

def dataC7 : List Record :=
  [[("a", "x"), ("b", "y"), ("c", "z")]]

/-- C7 counterexample: with more reserved fields than displayed columns
the computed column width is negative; the truncation branch still fires
on the cell `"z"`, producing `"..."` alone, which is not a cut to exactly
`column_width` characters (that would give a cell of length
`column_width + 3`). -/
theorem table_rows_truncation_counterexample :
    (Result.init epC7 dataC7).available_width 120 ["c"]
      = some (false, -118) ∧
    (Result.init epC7 dataC7).table_rows 120 ["c"] 25 = some [["..."]] ∧
    ("z" ≠ "" ∧ (-118 : Int) < ("z".length : Int) ∧
      (Result.init epC7 dataC7).endpoint.truncate_list.contains "c"
        = false) ∧
    ("...".length : Int) ≠ -118 + 3 := by
  exact ⟨by decide, by decide, by decide, by decide⟩

/-- C7 amended: for every row yielded by `table_rows`, when the computed
column width is nonnegative: a non-empty cell longer than the width in a
column outside the truncate list is cut to exactly `column_width`
characters with the `"..."` marker appended; a truncate-list cell is
never cut; an empty cell passes through unchanged. -/
theorem table_rows_truncation
    (r : Result) (width : Nat) (columns : List String) (limit : Nat)
    (b : Bool) (cw : Int) (rows : List (List String)) (i j : Nat)
    (row : List String) (srcRow : Record) (column content : String)
    (hw : r.available_width width columns = some (b, cw))
    (hcw : 0 ≤ cw)
    (hrows : r.table_rows width columns limit = some rows)
    (hrow : rows[i]? = some row)
    (hsrc : (r.limited limit)[i]? = some srcRow)
    (hcol : columns[j]? = some column)
    (hcontent : lookupField srcRow column = some content) :
    (content ≠ "" → cw < (content.length : Int) →
      r.endpoint.truncate_list.contains column = false →
      row[j]? = some (pySlice content cw ++ "...") ∧
      ((pySlice content cw).length : Int) = cw) ∧
    (r.endpoint.truncate_list.contains column = true →
      row[j]? = some content) ∧
    (content = "" → row[j]? = some content) := by
  unfold Result.table_rows at hrows
  rw [hw] at hrows
  dsimp only at hrows
  have hrowfn : mapOption (fun column =>
      (lookupField srcRow column).map
        (truncateCell r.endpoint.truncate_list cw column)) columns
      = some row := by
    have h2 := mapOption_getElem? _ _ _ i srcRow hrows hsrc
    rw [hrow] at h2
    exact h2.symm
  have hcell : row[j]? = (lookupField srcRow column).map
      (truncateCell r.endpoint.truncate_list cw column) :=
    mapOption_getElem? _ _ _ j column hrowfn hcol
  rw [hcontent, Option.map_some'] at hcell
  refine ⟨?_, ?_, ?_⟩
  · intro h1 h2 h3
    constructor
    · rw [hcell]
      unfold truncateCell
      rw [if_pos ⟨h1, h2, h3⟩]
    · unfold pySlice
      rw [if_pos hcw]
      show ((content.data.take cw.toNat).length : Int) = cw
      rw [List.length_take]
      have hlen : content.length = content.data.length := rfl
      have hle : cw.toNat ≤ content.data.length := by omega
      rw [min_eq_left hle, Int.toNat_of_nonneg hcw]
  · intro h1
    have hneg : ¬(content ≠ "" ∧ cw < (content.length : Int) ∧
        r.endpoint.truncate_list.contains column = false) := by
      rintro ⟨h3, h4, h5⟩
      rw [h1] at h5
      cases h5
    rw [hcell]
    unfold truncateCell
    rw [if_neg hneg]
  · intro h1
    subst h1
    rw [hcell]
    unfold truncateCell
    rw [if_neg (by simp)]

def epW7 : Endpoint :=
  { title := "People", emoji := "people", skip_list := [],
    truncate_list := ["url"], order := fun l => l }

def dataW7 : List Record :=
  [[("name", "ABCDEFGHIJKLMN"), ("url", "https://x")]]

/-- Witness for the amended C7: on a 16-character surface with a
9-character reserved url column, the 14-character name is cut to the
7-character width plus the marker. -/
theorem table_rows_truncation_witness :
    ("ABCDEFGHIJKLMN" ≠ "" → (7 : Int) < ("ABCDEFGHIJKLMN".length : Int) →
      (Result.init epW7 dataW7).endpoint.truncate_list.contains "name"
        = false →
      (["ABCDEFG...", "https://x"] : List String)[0]?
        = some (pySlice "ABCDEFGHIJKLMN" 7 ++ "...") ∧
      ((pySlice "ABCDEFGHIJKLMN" 7).length : Int) = 7) ∧
    ((Result.init epW7 dataW7).endpoint.truncate_list.contains "name"
        = true →
      (["ABCDEFG...", "https://x"] : List String)[0]?
        = some "ABCDEFGHIJKLMN") ∧
    ("ABCDEFGHIJKLMN" = "" →
      (["ABCDEFG...", "https://x"] : List String)[0]?
        = some "ABCDEFGHIJKLMN") :=
  table_rows_truncation (Result.init epW7 dataW7) 16 ["name", "url"] 25
    false 7 [["ABCDEFG...", "https://x"]] 0 0
    ["ABCDEFG...", "https://x"]
    [("name", "ABCDEFGHIJKLMN"), ("url", "https://x")]
    "name" "ABCDEFGHIJKLMN"
    (by decide) (by decide) (by decide) (by decide) (by decide)
    (by decide) (by decide)

/-!
Lemmas for the store-based model and the in-place mutation claim.
-/

theorem getRec_setRec_self (s : Store) (i : Nat) (e : Record)
    (h : i < s.length) : getRec (setRec s i e) i = e := by
  unfold getRec setRec
  rw [List.getD_eq_getElem?_getD, List.getElem?_set_eq_of_lt _ h]
  rfl

theorem getRec_setRec_ne (s : Store) (i j : Nat) (e : Record)
    (h : i ≠ j) : getRec (setRec s i e) j = getRec s j := by
  unfold getRec setRec
  rw [List.getD_eq_getElem?_getD, List.getElem?_set_ne h,
    ← List.getD_eq_getElem?_getD]

theorem setRec_length (s : Store) (i : Nat) (e : Record) :
    (setRec s i e).length = s.length :=
  List.length_set s i e

theorem ensureGoS_length (tl fs : List String) (ids : List Nat)
    (s : Store) (mw : MW) :
    (ensureGoS tl fs ids s mw).1.length = s.length := by
  induction ids generalizing s mw with
  | nil => rfl
  | cons id ids ih =>
    show (ensureGoS tl fs ids
        (setRec s id (processEntry tl fs (getRec s id, mw)).1)
        (processEntry tl fs (getRec s id, mw)).2).1.length = _
    rw [ih, setRec_length]

theorem ensureGoS_not_mem (tl fs : List String) (ids : List Nat)
    (s : Store) (mw : MW) (i : Nat) (h : i ∉ ids) :
    getRec (ensureGoS tl fs ids s mw).1 i = getRec s i := by
  induction ids generalizing s mw with
  | nil => rfl
  | cons id ids ih =>
    show getRec (ensureGoS tl fs ids
        (setRec s id (processEntry tl fs (getRec s id, mw)).1)
        (processEntry tl fs (getRec s id, mw)).2).1 i = _
    rw [ih _ _ (fun hm => h (List.mem_cons_of_mem id hm)),
      getRec_setRec_ne _ _ _ _
        (fun he => h (by rw [← he]; exact List.mem_cons_self id ids))]

theorem ensureGoS_mem (tl fs : List String) (ids : List Nat)
    (s : Store) (mw : MW) (i : Nat) (hnd : ids.Nodup)
    (hb : ∀ j ∈ ids, j < s.length) (h : i ∈ ids) :
    getRec (ensureGoS tl fs ids s mw).1 i = fillEntry fs (getRec s i) := by
  induction ids generalizing s mw with
  | nil => cases h
  | cons id ids ih =>
    have hnd2 := List.nodup_cons.mp hnd
    show getRec (ensureGoS tl fs ids
        (setRec s id (processEntry tl fs (getRec s id, mw)).1)
        (processEntry tl fs (getRec s id, mw)).2).1 i = _
    rcases List.mem_cons.mp h with h1 | h1
    · subst h1
      rw [ensureGoS_not_mem _ _ _ _ _ _ hnd2.1,
        getRec_setRec_self _ _ _ (hb i (List.mem_cons_self i ids)),
        processEntry_fst]
    · have hne : id ≠ i := fun he => hnd2.1 (he.symm ▸ h1)
      rw [ih _ _ hnd2.2
        (fun j hj => by
          rw [setRec_length]
          exact hb j (List.mem_cons_of_mem id hj)) h1,
        getRec_setRec_ne _ _ _ _ hne]

def epWA : Endpoint :=
  { title := "People", emoji := "people", skip_list := [],
    truncate_list := [], order := fun l => l }

def storeWA : Store :=
  [[("name", "Alice"), ("role", "chair")], [("name", "Bob")]]

/-- C10: Result construction fills the record objects the caller passed
in: the heap cell behind each original reference afterwards holds the
filled record (keys absent before now map to the empty string), to_dict
returns the internal reference list itself, and writing a new record
through a reference obtained from to_dict changes the record sequence a
later table render reads. -/
theorem result_init_in_place (ep : Endpoint) (s : Store)
    (ids0 ids : List Nat) (hperm : ids.Perm ids0) (hnd : ids.Nodup)
    (hb : ∀ i ∈ ids, i < s.length) (id : Nat) (hid : id ∈ ids0)
    (k : String) (j : Nat) (rec : Record)
    (hj : (ResultS.init ep s ids).2.to_dict[j]? = some id) :
    (getRec (ResultS.init ep s ids).1 id
      = fillEntry (unionFields (ids.map (getRec s))) (getRec s id)) ∧
    ((ResultS.init ep s ids).2.to_dict = (ResultS.init ep s ids).2.data) ∧
    (k ∈ unionFields (ids.map (getRec s)) →
      hasKey (getRec s id) k = false →
      lookupField (getRec (ResultS.init ep s ids).1 id) k = some "") ∧
    (((ResultS.init ep s ids).2.view
        (setRec (ResultS.init ep s ids).1 id rec)).data[j]? = some rec) := by
  have hmem : id ∈ ids := hperm.mem_iff.mpr hid
  have h1 : getRec (ResultS.init ep s ids).1 id
      = fillEntry (unionFields (ids.map (getRec s))) (getRec s id) := by
    show getRec (ensureGoS ep.truncate_list
        (unionFields (ids.map (getRec s))) ids s []).1 id = _
    exact ensureGoS_mem _ _ _ _ _ _ hnd hb hmem
  refine ⟨h1, rfl, ?_, ?_⟩
  · intro hk hfalse
    rw [h1]
    exact lookupField_fillEntry_missing _ _ _ hk hfalse
  · show (ids.map (getRec (setRec (ResultS.init ep s ids).1 id rec)))[j]?
      = some rec
    have hj2 : ids[j]? = some id := hj
    rw [List.getElem?_map, hj2, Option.map_some',
      getRec_setRec_self _ _ _ (by
        show id < (ensureGoS ep.truncate_list
          (unionFields (ids.map (getRec s))) ids s []).1.length
        rw [ensureGoS_length]
        exact hb id hmem)]

/-- Witness for C10: the caller record `[("name", "Bob")]` behind
reference 1 gains `("role", "")` in place, and writing a fresh record
through the alias returned by to_dict changes row 1 of the rendered
view. -/
theorem result_init_in_place_witness :
    (getRec (ResultS.init epWA storeWA [0, 1]).1 1
      = fillEntry (unionFields ([0, 1].map (getRec storeWA)))
          (getRec storeWA 1)) ∧
    ((ResultS.init epWA storeWA [0, 1]).2.to_dict
      = (ResultS.init epWA storeWA [0, 1]).2.data) ∧
    ("role" ∈ unionFields ([0, 1].map (getRec storeWA)) →
      hasKey (getRec storeWA 1) "role" = false →
      lookupField (getRec (ResultS.init epWA storeWA [0, 1]).1 1) "role"
        = some "") ∧
    (((ResultS.init epWA storeWA [0, 1]).2.view
        (setRec (ResultS.init epWA storeWA [0, 1]).1 1
          [("x", "y")])).data[1]? = some [("x", "y")]) :=
  result_init_in_place epWA storeWA [0, 1] [0, 1] (List.Perm.refl _)
    (by decide) (by decide) 1 (by decide) "role" 1 [("x", "y")]
    (by decide)
